import Mathlib

/-
Verification of the fast-typescript-memoize core:
- `buildNewMethod` (the `@Memoize()` engine with WeakMap / Map / hidden-property
  storages and the `clearOnReject` / `clearOnResolve` settlement policy),
- `memoize0` (the singleton-slot helper),
- `memoizeExpireUnused` (the inactivity-timer cache).

The engine is embedded as a small-step machine over explicit state: a call
event models one invocation of the wrapped method, a settle event models the
settlement of the promise returned by one `origMethod` run (the JS microtask
that runs the attached `.catch`/`.then` handlers and then settles the derived
promise is one atomic step, with the handler's `map.delete` sequenced before
the derived promise's settlement is recorded). The receiver is fixed: one
machine models one (wrapped member, receiver) pair, which is exactly the
granularity at which the source allocates its hidden storages.
-/

/-- A JavaScript runtime value, as far as the cache engine inspects one:
primitives are compared by value, objects by reference identity (`vObj ref`). -/
inductive JSVal where
  | vUndefined
  | vNull
  | vBool (b : Bool)
  | vNum (n : Int)
  | vStr (s : String)
  | vObj (ref : Nat)
deriving DecidableEq

/-- JavaScript's `typeof` operator on the values above. Note the JS quirk
`typeof null === "object"`, which is why the source guards with
`hashKey !== null`. -/
def typeofJS : JSVal → String
  | .vUndefined => "undefined"
  | .vNull => "object"
  | .vBool _ => "boolean"
  | .vNum _ => "number"
  | .vStr _ => "string"
  | .vObj _ => "object"

/-- The key classifier of `buildNewMethod`:
`hashKey !== null && typeof hashKey === "object"` selects the WeakMap branch. -/
def isWeakKey (v : JSVal) : Bool :=
  !(v == JSVal.vNull) && (typeofJS v == "object")

/-- The object reference of a `vObj`; only ever applied to values for which
`isWeakKey` holds (then the WeakMap is keyed by this reference). -/
def objRef : JSVal → Nat
  | .vObj r => r
  | _ => 0

/-- Association-list lookup (models `Map.get` / `WeakMap.get`; JS Map key
equality on the primitives modelled here coincides with `=`). -/
def alookup {α β : Type} [DecidableEq α] : List (α × β) → α → Option β
  | [], _ => none
  | (a, b) :: t, k => if a = k then some b else alookup t k

/-- Association-list deletion (models `Map.delete` / `WeakMap.delete`). -/
def aerase {α β : Type} [DecidableEq α] (k : α) : List (α × β) → List (α × β)
  | [] => []
  | (a, b) :: t => if a = k then aerase k t else (a, b) :: aerase k t

/-- Association-list in-place update of an existing entry (models mutating the
slot object stored in the map). -/
def aset {α β : Type} [DecidableEq α] (k : α) (v : β) : List (α × β) → List (α × β)
  | [] => []
  | (a, b) :: t => if a = k then (k, v) :: t else (a, b) :: aset k v t

theorem alookup_aerase {α β : Type} [DecidableEq α] (k k' : α) (l : List (α × β)) :
    alookup (aerase k l) k' = if k' = k then none else alookup l k' := by
  induction l with
  | nil => simp [aerase, alookup]
  | cons hd tl ih =>
    obtain ⟨a, b⟩ := hd
    by_cases hak : a = k
    · have e1 : aerase k ((a, b) :: tl) = aerase k tl := by simp [aerase, hak]
      rw [e1, ih]
      by_cases hk' : k' = k
      · simp [hk']
      · have hne : ¬(a = k') := fun h => hk' (h.symm.trans hak)
        simp [alookup, hk', hne]
    · have e2 : aerase k ((a, b) :: tl) = (a, b) :: aerase k tl := by simp [aerase, hak]
      rw [e2]
      by_cases hak' : a = k'
      · have hk'k : ¬(k' = k) := fun h => hak (hak'.trans h)
        simp [alookup, hak', hk'k]
      · simp [alookup, hak', ih]

theorem alookup_aset_of_mem {α β : Type} [DecidableEq α] (k : α) (v : β)
    (l : List (α × β)) (h : (alookup l k).isSome) :
    alookup (aset k v l) k = some v := by
  induction l with
  | nil => simp [alookup] at h
  | cons hd tl ih =>
    obtain ⟨a, b⟩ := hd
    by_cases hak : a = k
    · subst hak
      simp [aset, alookup]
    · simp [alookup, hak] at h
      simp [aset, alookup, hak, ih h]

theorem alookup_aset_ne {α β : Type} [DecidableEq α] (k k' : α) (v : β)
    (l : List (α × β)) (h : k' ≠ k) :
    alookup (aset k v l) k' = alookup l k' := by
  induction l with
  | nil => simp [aset]
  | cons hd tl ih =>
    obtain ⟨a, b⟩ := hd
    by_cases hak : a = k
    · subst hak
      have hka : ¬(a = k') := fun hh => h hh.symm
      simp [aset, alookup, Ne.symm h, hka]
    · simp [aset, alookup, hak, ih]

theorem mem_aerase {α β : Type} [DecidableEq α] (k : α) (l : List (α × β))
    (p : α × β) (h : p ∈ aerase k l) : p ∈ l := by
  induction l with
  | nil => simp [aerase] at h
  | cons hd tl ih =>
    obtain ⟨a, b⟩ := hd
    by_cases hak : a = k
    · simp [aerase, hak] at h
      exact List.mem_cons_of_mem _ (ih h)
    · simp [aerase, hak] at h
      rcases h with h | h
      · simp [h]
      · exact List.mem_cons_of_mem _ (ih h)

theorem mem_aset {α β : Type} [DecidableEq α] (k : α) (v : β) (l : List (α × β))
    (p : α × β) (h : p ∈ aset k v l) : p = (k, v) ∨ p ∈ l := by
  induction l with
  | nil => simp [aset] at h
  | cons hd tl ih =>
    obtain ⟨a, b⟩ := hd
    by_cases hak : a = k
    · simp [aset, hak] at h
      rcases h with h | h
      · exact Or.inl h
      · exact Or.inr (List.mem_cons_of_mem _ h)
    · simp [aset, hak] at h
      rcases h with h | h
      · exact Or.inr (by simp [h])
      · rcases ih h with h' | h'
        · exact Or.inl h'
        · exact Or.inr (List.mem_cons_of_mem _ h')

theorem alookup_some_mem {α β : Type} [DecidableEq α] (l : List (α × β)) (k : α)
    (b : β) (h : alookup l k = some b) : (k, b) ∈ l := by
  induction l with
  | nil => simp [alookup] at h
  | cons hd tl ih =>
    obtain ⟨a, c⟩ := hd
    by_cases hak : a = k
    · subst hak
      simp [alookup] at h
      simp [h]
    · simp [alookup, hak] at h
      exact List.mem_cons_of_mem _ (ih h)

/-- Settlement outcome of a JS promise: fulfilled with a value or rejected
with an error value. -/
inductive Outcome where
  | ok (v : JSVal)
  | err (e : JSVal)
deriving DecidableEq

/-- The `MemoizeOptions` record. A field holds `none` when the corresponding
property is absent from the options object (JS `undefined`). -/
structure MemoizeOptions where
  clearOnReject : Option Bool := none
  clearOnResolve : Option Bool := none
deriving DecidableEq

/-- The flags `buildNewMethod` actually acts on, following JS semantics of
`\x7b clearOnReject, clearOnResolve \x7d: MemoizeOptions = \x7b clearOnReject:
true, clearOnResolve: false \x7d`: the defaulted record is used only when the
`options` argument is entirely absent; otherwise each flag is the record's
property, with an absent property (`undefined`) acting as falsy in the
`if (clearOnReject && ...)` / `if (clearOnResolve && ...)` tests. -/
def effectiveFlags : Option MemoizeOptions → Bool × Bool
  | none => (true, false)
  | some o => (o.clearOnReject.getD false, o.clearOnResolve.getD false)

/-- Settlement semantics of `p.catch(deleteXxxAndRethrow.bind(undefined, store,
key))`: given the outcome of `p`, return whether the handler deleted the slot
and the outcome of the derived promise. On fulfillment the handler is not
invoked and the value passes through; on rejection the handler deletes the
slot and rethrows the same error. -/
def catchDeleteRethrow : Outcome → Bool × Outcome
  | .ok v => (false, .ok v)
  | .err e => (true, .err e)

/-- Settlement semantics of `p.then(deleteXxxAndReturn.bind(undefined, store,
key))`: on fulfillment the handler deletes the slot and returns the same
value; on rejection the handler is not invoked and the rejection passes
through. -/
def thenDeleteReturn : Outcome → Bool × Outcome
  | .ok v => (true, .ok v)
  | .err e => (false, .err e)

/-- The promise chain `buildNewMethod` stores: `value = value.catch(...)` when
`clearOnReject` is truthy, then `value = value.then(...)` when
`clearOnResolve` is truthy. Given the original computation's outcome, returns
whether any handler deleted the slot and the outcome the stored promise
delivers to its callers. -/
def chainSettle (cr cv : Bool) (o : Outcome) : Bool × Outcome :=
  let s1 := if cr then catchDeleteRethrow o else (false, o)
  let s2 := if cv then thenDeleteReturn s1.2 else (false, s1.2)
  (s1.1 || s2.1, s2.2)

/-- The chained handlers never change the delivered outcome: the same error or
value the computation produced reaches every caller, unwrapped. -/
theorem chainSettle_outcome (cr cv : Bool) (o : Outcome) :
    (chainSettle cr cv o).2 = o := by
  cases o <;> cases cr <;> cases cv <;> rfl

/-- The slot the current call uses: one of the three storages of
`buildNewMethod` (WeakMap keyed by object reference, Map keyed by a primitive
value, or the hidden `propValName` object property). -/
inductive SlotRef where
  | weakKey (ref : Nat)
  | mapKey (k : JSVal)
  | valProp
deriving DecidableEq

/-- What a slot holds: a plain (non-Promise) result stored as-is, or the
(possibly `.catch`/`.then`-chained) promise created for run `run` of
`origMethod`. -/
inductive StoredVal where
  | plain (v : JSVal)
  | prom (run : Nat)
deriving DecidableEq

/-- What `origMethod` produces on one invocation: a plain value (the
`value instanceof Promise` test fails) or a fresh promise. -/
inductive ComputeRes where
  | value (v : JSVal)
  | promise
deriving DecidableEq

/-- One invocation of `origMethod`: where its settlement handlers would
delete (`slot`, the storage location captured by the bound helper), whether
the result was a promise, and — once settled — the outcome delivered by the
stored/returned promise. -/
structure Run where
  slot : SlotRef
  isProm : Bool
  settled : Option Outcome
deriving DecidableEq

/-- The hidden per-(member, receiver) storage of `buildNewMethod`:
`this[propWeakName]` (WeakMap), `this[propMapName]` (Map), and
`this[propValName]` (hidden property; `none` models the property being
absent, i.e. `hasOwnProperty` false). `runs` records the `origMethod`
invocations in order. -/
structure MemoState where
  runs : List Run
  weak : List (Nat × StoredVal)
  map : List (JSVal × StoredVal)
  val : Option StoredVal
deriving DecidableEq

def MemoState.init : MemoState := ⟨[], [], [], none⟩

/-- Contents of a storage location (presence is `WeakMap.has` / `Map.has` /
`hasOwnProperty` — key or property existence, never truthiness of the
payload). -/
def contents (s : MemoState) : SlotRef → Option StoredVal
  | .weakKey r => alookup s.weak r
  | .mapKey k => alookup s.map k
  | .valProp => s.val

/-- `weak.set` / `map.set` / `Object.defineProperty(this, propValName, ...)`:
only ever invoked on a location whose lookup just missed. -/
def writeSlot (s : MemoState) : SlotRef → StoredVal → MemoState
  | .weakKey r, v => { s with weak := (r, v) :: s.weak }
  | .mapKey k, v => { s with map := (k, v) :: s.map }
  | .valProp, v => { s with val := some v }

/-- `weak.delete(key)` / `map.delete(key)` / `delete obj[propValName]`, as
performed by the bound `deleteXxxAndRethrow` / `deleteXxxAndReturn` helpers. -/
def deleteSlot (s : MemoState) : SlotRef → MemoState
  | .weakKey r => { s with weak := aerase r s.weak }
  | .mapKey k => { s with map := aerase k s.map }
  | .valProp => { s with val := none }

/-- `const hashKey = hasher ? hasher.apply(this, args) : args[0]`. Only
consulted when `hasher || args.length > 0`, so the `headD` default is never
reached with no hasher and empty args. The receiver is fixed, so a hasher is
a function of the argument list. -/
def hashKeyOf (hasher : Option (List JSVal → JSVal)) (args : List JSVal) : JSVal :=
  match hasher with
  | some h => h args
  | none => args.headD JSVal.vUndefined

/-- The storage-selection logic of `buildNewMethod`: with a hasher or at
least one argument, the WeakMap branch when
`hashKey !== null && typeof hashKey === "object"`, the Map branch otherwise;
with no hasher and no arguments, the hidden-property branch. -/
def callLocation (hasher : Option (List JSVal → JSVal)) (args : List JSVal) :
    SlotRef :=
  if hasher.isSome || args.length > 0 then
    let hashKey := hashKeyOf hasher args
    if isWeakKey hashKey then .weakKey (objRef hashKey) else .mapKey hashKey
  else .valProp

/-- One invocation of the wrapped method (the function `buildNewMethod`
returns), with the three textually-duplicated storage branches of the source
factored through `contents`/`writeSlot`. On a hit the stored value is
returned; on a miss `origMethod` runs (run index = number of prior runs), the
result — when it is a promise — is chained with the `clearOnReject` /
`clearOnResolve` handlers, and the (chained) result is stored and returned. -/
def stepCall (hasher : Option (List JSVal → JSVal)) (cr cv : Bool)
    (compute : Nat → ComputeRes) (s : MemoState) (args : List JSVal) :
    MemoState × StoredVal :=
  let L := callLocation hasher args
  match contents s L with
  | some v => (s, v)
  | none =>
    let j := s.runs.length
    match compute j with
    | .value v =>
      (writeSlot { s with runs := s.runs ++ [⟨L, false, none⟩] } L (.plain v),
        .plain v)
    | .promise =>
      (writeSlot { s with runs := s.runs ++ [⟨L, true, none⟩] } L (.prom j),
        .prom j)

/-- Settlement of run `i`'s promise: the attached handlers run (deleting the
captured slot when the policy says so, `map.delete` sequenced before the
derived promise settles) and the delivered outcome is recorded. A no-op for a
non-promise run, an unknown run index, or an already-settled promise (a JS
promise settles once). -/
def stepSettle (cr cv : Bool) (s : MemoState) (i : Nat) (o : Outcome) :
    MemoState :=
  match s.runs[i]? with
  | none => s
  | some run =>
    if run.isProm && run.settled.isNone then
      let d := chainSettle cr cv o
      let s1 := if d.1 then deleteSlot s run.slot else s
      { s1 with runs := s1.runs.set i { run with settled := some d.2 } }
    else s

/-- An event of the single-threaded schedule: a call of the wrapped method,
or the settlement of one run's promise. -/
inductive MemoEv where
  | call (args : List JSVal)
  | settle (i : Nat) (o : Outcome)
deriving DecidableEq

def stepEv (hasher : Option (List JSVal → JSVal)) (cr cv : Bool)
    (compute : Nat → ComputeRes) (s : MemoState) : MemoEv → MemoState
  | .call args => (stepCall hasher cr cv compute s args).1
  | .settle i o => stepSettle cr cv s i o

/-- The state after a schedule of events, starting from fresh storages. -/
def runTrace (hasher : Option (List JSVal → JSVal)) (cr cv : Bool)
    (compute : Nat → ComputeRes) (t : List MemoEv) : MemoState :=
  t.foldl (stepEv hasher cr cv compute) MemoState.init

theorem writeSlot_runs (s : MemoState) (L : SlotRef) (v : StoredVal) :
    (writeSlot s L v).runs = s.runs := by
  cases L <;> rfl

theorem deleteSlot_runs (s : MemoState) (L : SlotRef) :
    (deleteSlot s L).runs = s.runs := by
  cases L <;> rfl

theorem contents_set_runs (s : MemoState) (x : List Run) (L : SlotRef) :
    contents { s with runs := x } L = contents s L := by
  cases L <;> rfl

theorem contents_writeSlot_self (s : MemoState) (L : SlotRef) (v : StoredVal) :
    contents (writeSlot s L v) L = some v := by
  cases L <;> simp [writeSlot, contents, alookup]

theorem contents_writeSlot_ne (s : MemoState) (L L' : SlotRef) (v : StoredVal)
    (h : L' ≠ L) : contents (writeSlot s L v) L' = contents s L' := by
  cases L with
  | weakKey r =>
    cases L' with
    | weakKey r' =>
      have hr : ¬(r = r') := fun hh => h (by rw [hh])
      simp [writeSlot, contents, alookup, hr]
    | mapKey k' => rfl
    | valProp => rfl
  | mapKey k =>
    cases L' with
    | weakKey r' => rfl
    | mapKey k' =>
      have hk : ¬(k = k') := fun hh => h (by rw [hh])
      simp [writeSlot, contents, alookup, hk]
    | valProp => rfl
  | valProp =>
    cases L' with
    | weakKey r' => rfl
    | mapKey k' => rfl
    | valProp => exact absurd rfl h

theorem contents_deleteSlot_self (s : MemoState) (L : SlotRef) :
    contents (deleteSlot s L) L = none := by
  cases L <;> simp [deleteSlot, contents, alookup_aerase]

theorem contents_deleteSlot_ne (s : MemoState) (L L' : SlotRef)
    (h : L' ≠ L) : contents (deleteSlot s L) L' = contents s L' := by
  cases L with
  | weakKey r =>
    cases L' with
    | weakKey r' =>
      have hr : ¬(r' = r) := fun hh => h (by rw [hh])
      simp [deleteSlot, contents, alookup_aerase, hr]
    | mapKey k' => rfl
    | valProp => rfl
  | mapKey k =>
    cases L' with
    | weakKey r' => rfl
    | mapKey k' =>
      have hk : ¬(k' = k) := fun hh => h (by rw [hh])
      simp [deleteSlot, contents, alookup_aerase, hk]
    | valProp => rfl
  | valProp =>
    cases L' with
    | weakKey r' => rfl
    | mapKey k' => rfl
    | valProp => exact absurd rfl h

theorem stepCall_eq_hit (hasher : Option (List JSVal → JSVal)) (cr cv : Bool)
    (compute : Nat → ComputeRes) (s : MemoState) (args : List JSVal)
    (v : StoredVal) (hC : contents s (callLocation hasher args) = some v) :
    stepCall hasher cr cv compute s args = (s, v) := by
  simp only [stepCall, hC]

theorem stepCall_eq_miss_value (hasher : Option (List JSVal → JSVal))
    (cr cv : Bool) (compute : Nat → ComputeRes) (s : MemoState)
    (args : List JSVal) (v : JSVal)
    (hC : contents s (callLocation hasher args) = none)
    (hcomp : compute s.runs.length = .value v) :
    stepCall hasher cr cv compute s args =
      (writeSlot
        { s with runs := s.runs ++ [⟨callLocation hasher args, false, none⟩] }
        (callLocation hasher args) (.plain v), .plain v) := by
  simp only [stepCall, hC, hcomp]

theorem stepCall_eq_miss_promise (hasher : Option (List JSVal → JSVal))
    (cr cv : Bool) (compute : Nat → ComputeRes) (s : MemoState)
    (args : List JSVal)
    (hC : contents s (callLocation hasher args) = none)
    (hcomp : compute s.runs.length = .promise) :
    stepCall hasher cr cv compute s args =
      (writeSlot
        { s with runs := s.runs ++ [⟨callLocation hasher args, true, none⟩] }
        (callLocation hasher args) (.prom s.runs.length),
        .prom s.runs.length) := by
  simp only [stepCall, hC, hcomp]

theorem stepSettle_eq_missing (cr cv : Bool) (s : MemoState) (i : Nat)
    (o : Outcome) (h : s.runs[i]? = none) : stepSettle cr cv s i o = s := by
  simp only [stepSettle, h]

theorem stepSettle_eq_skip (cr cv : Bool) (s : MemoState) (i : Nat)
    (o : Outcome) (run : Run) (h : s.runs[i]? = some run)
    (hg : (run.isProm && run.settled.isNone) = false) :
    stepSettle cr cv s i o = s := by
  simp only [stepSettle, h, hg]
  rfl

theorem stepSettle_eq_act (cr cv : Bool) (s : MemoState) (i : Nat)
    (o : Outcome) (run : Run) (h : s.runs[i]? = some run)
    (hp : run.isProm = true) (hu : run.settled = none) :
    stepSettle cr cv s i o =
      (let s1 :=
        if (chainSettle cr cv o).1 then deleteSlot s run.slot else s
       { s1 with
         runs := s1.runs.set i { run with settled := some (chainSettle cr cv o).2 } }) := by
  simp only [stepSettle, h, hp, hu, Option.isNone_none, Bool.and_self]
  rfl

theorem stepSettle_eq_act_del (cr cv : Bool) (s : MemoState) (i : Nat)
    (o : Outcome) (run : Run) (h : s.runs[i]? = some run)
    (hp : run.isProm = true) (hu : run.settled = none)
    (hdel : (chainSettle cr cv o).1 = true) :
    stepSettle cr cv s i o =
      { deleteSlot s run.slot with
        runs := (deleteSlot s run.slot).runs.set i
          { run with settled := some (chainSettle cr cv o).2 } } := by
  rw [stepSettle_eq_act cr cv s i o run h hp hu]
  rw [if_pos hdel]

theorem stepSettle_eq_act_keep (cr cv : Bool) (s : MemoState) (i : Nat)
    (o : Outcome) (run : Run) (h : s.runs[i]? = some run)
    (hp : run.isProm = true) (hu : run.settled = none)
    (hdel : (chainSettle cr cv o).1 = false) :
    stepSettle cr cv s i o =
      { s with
        runs := s.runs.set i
          { run with settled := some (chainSettle cr cv o).2 } } := by
  rw [stepSettle_eq_act cr cv s i o run h hp hu]
  rw [if_neg (by rw [hdel]; exact Bool.false_ne_true)]

/-- The slot-store invariant of the engine:
(a) a location holding the promise of run `j` is the location run `j`'s
handlers are bound to delete;
(b) while a promise-producing run is unsettled, the location it was stored at
still holds exactly that run's promise (nothing else can evict it, since
deletions happen only in settlement handlers). -/
def EngineInv (s : MemoState) : Prop :=
  (∀ L j, contents s L = some (.prom j) →
      ∃ run, s.runs[j]? = some run ∧ run.slot = L) ∧
  (∀ i run, s.runs[i]? = some run → run.isProm = true → run.settled = none →
      contents s run.slot = some (.prom i))

theorem inv_init : EngineInv MemoState.init := by
  constructor
  · intro L j h
    cases L <;> simp [contents, MemoState.init, alookup] at h
  · intro i run h hp hu
    simp [MemoState.init] at h

theorem inv_stepCall (hasher : Option (List JSVal → JSVal)) (cr cv : Bool)
    (compute : Nat → ComputeRes) (s : MemoState) (args : List JSVal)
    (h : EngineInv s) : EngineInv (stepCall hasher cr cv compute s args).1 := by
  cases hC : contents s (callLocation hasher args) with
  | some v =>
    rw [stepCall_eq_hit hasher cr cv compute s args v hC]
    exact h
  | none =>
    cases hcomp : compute s.runs.length with
    | value v =>
      rw [stepCall_eq_miss_value hasher cr cv compute s args v hC hcomp]
      set L := callLocation hasher args with hLdef
      set nr : Run := ⟨L, false, none⟩ with hnr
      set s' := writeSlot { s with runs := s.runs ++ [nr] } L (.plain v)
        with hs'
      have hruns : s'.runs = s.runs ++ [nr] := by
        rw [hs', writeSlot_runs]
      constructor
      · intro L' j hc'
        by_cases hLL : L' = L
        · rw [hLL, hs', contents_writeSlot_self] at hc'
          exact absurd hc' (by simp)
        · rw [hs', contents_writeSlot_ne _ _ _ _ hLL,
            contents_set_runs] at hc'
          obtain ⟨run, hr, hsl⟩ := h.1 L' j hc'
          refine ⟨run, ?_, hsl⟩
          have hj : j < s.runs.length := (List.getElem?_eq_some.mp hr).1
          rw [hruns, List.getElem?_append, if_pos hj]
          exact hr
      · intro i run hr hp hu
        rw [hruns] at hr
        by_cases hi : i = s.runs.length
        · rw [hi, List.getElem?_concat_length] at hr
          simp only [Option.some.injEq] at hr
          rw [← hr] at hp
          exact absurd hp (by simp [hnr])
        · have hlen : i < (s.runs ++ [nr]).length :=
            (List.getElem?_eq_some.mp hr).1
          have hlt : i < s.runs.length := by
            simp [List.length_append] at hlen
            omega
          rw [List.getElem?_append, if_pos hlt] at hr
          have hold := h.2 i run hr hp hu
          have hne : run.slot ≠ L := by
            intro hh
            rw [hh, hC] at hold
            exact absurd hold (by simp)
          rw [hs', contents_writeSlot_ne _ _ _ _ hne, contents_set_runs]
          exact hold
    | promise =>
      rw [stepCall_eq_miss_promise hasher cr cv compute s args hC hcomp]
      set L := callLocation hasher args with hLdef
      set nr : Run := ⟨L, true, none⟩ with hnr
      set s' := writeSlot { s with runs := s.runs ++ [nr] } L
        (.prom s.runs.length) with hs'
      have hruns : s'.runs = s.runs ++ [nr] := by
        rw [hs', writeSlot_runs]
      constructor
      · intro L' j hc'
        by_cases hLL : L' = L
        · rw [hLL, hs', contents_writeSlot_self] at hc'
          have hj : j = s.runs.length := by
            simp only [Option.some.injEq, StoredVal.prom.injEq] at hc'
            omega
          refine ⟨nr, ?_, by rw [hLL]⟩
          rw [hruns, hj, List.getElem?_concat_length]
        · rw [hs', contents_writeSlot_ne _ _ _ _ hLL,
            contents_set_runs] at hc'
          obtain ⟨run, hr, hsl⟩ := h.1 L' j hc'
          refine ⟨run, ?_, hsl⟩
          have hj : j < s.runs.length := (List.getElem?_eq_some.mp hr).1
          rw [hruns, List.getElem?_append, if_pos hj]
          exact hr
      · intro i run hr hp hu
        rw [hruns] at hr
        by_cases hi : i = s.runs.length
        · rw [hi, List.getElem?_concat_length] at hr
          simp only [Option.some.injEq] at hr
          have hrun : run = nr := hr.symm
          rw [hrun, hnr]
          rw [hs', hi, contents_writeSlot_self]
        · have hlen : i < (s.runs ++ [nr]).length :=
            (List.getElem?_eq_some.mp hr).1
          have hlt : i < s.runs.length := by
            simp [List.length_append] at hlen
            omega
          rw [List.getElem?_append, if_pos hlt] at hr
          have hold := h.2 i run hr hp hu
          have hne : run.slot ≠ L := by
            intro hh
            rw [hh, hC] at hold
            exact absurd hold (by simp)
          rw [hs', contents_writeSlot_ne _ _ _ _ hne, contents_set_runs]
          exact hold

theorem inv_stepSettle (cr cv : Bool) (s : MemoState) (i : Nat) (o : Outcome)
    (h : EngineInv s) : EngineInv (stepSettle cr cv s i o) := by
  cases hr : s.runs[i]? with
  | none =>
    rw [stepSettle_eq_missing cr cv s i o hr]
    exact h
  | some run =>
    cases hg : run.isProm && run.settled.isNone with
    | false =>
      rw [stepSettle_eq_skip cr cv s i o run hr hg]
      exact h
    | true =>
      have hp : run.isProm = true := by
        cases hpp : run.isProm
        · rw [hpp] at hg
          simp at hg
        · rfl
      have hu : run.settled = none := by
        cases huu : run.settled with
        | none => rfl
        | some x =>
          rw [hp, huu] at hg
          simp at hg
      have hlt : i < s.runs.length := (List.getElem?_eq_some.mp hr).1
      have hiC : contents s run.slot = some (.prom i) := h.2 i run hr hp hu
      cases hdel : (chainSettle cr cv o).1 with
      | true =>
        rw [stepSettle_eq_act_del cr cv s i o run hr hp hu hdel]
        set run' : Run := { run with settled := some (chainSettle cr cv o).2 }
          with hrun'
        set s' : MemoState :=
          { deleteSlot s run.slot with
            runs := (deleteSlot s run.slot).runs.set i run' } with hs'
        have hruns : s'.runs = s.runs.set i run' := by
          rw [hs', deleteSlot_runs]
        have hcont : ∀ L', contents s' L' = contents (deleteSlot s run.slot) L' := by
          intro L'
          rw [hs']
          exact contents_set_runs _ _ _
        constructor
        · intro L' j hc'
          rw [hcont] at hc'
          by_cases hLL : L' = run.slot
          · rw [hLL, contents_deleteSlot_self] at hc'
            exact absurd hc' (by simp)
          · rw [contents_deleteSlot_ne _ _ _ hLL] at hc'
            obtain ⟨rj, hrj, hsl⟩ := h.1 L' j hc'
            by_cases hji : j = i
            · rw [hji, hr] at hrj
              simp only [Option.some.injEq] at hrj
              rw [← hrj] at hsl
              exact absurd hsl.symm hLL
            · refine ⟨rj, ?_, hsl⟩
              rw [hruns, List.getElem?_set_ne (fun hh => hji hh.symm)]
              exact hrj
        · intro i' run'' hr'' hp'' hu''
          by_cases hii : i' = i
          · rw [hii, hruns, List.getElem?_set_eq_of_lt _ (by simp [hlt])] at hr''
            simp only [Option.some.injEq] at hr''
            rw [← hr'', hrun'] at hu''
            simp at hu''
          · rw [hruns, List.getElem?_set_ne (fun hh => hii hh.symm)] at hr''
            have hold := h.2 i' run'' hr'' hp'' hu''
            have hne : run''.slot ≠ run.slot := by
              intro hh
              rw [hh, hiC] at hold
              have : i = i' := by
                simp only [Option.some.injEq, StoredVal.prom.injEq] at hold
                omega
              exact hii this.symm
            rw [hcont, contents_deleteSlot_ne _ _ _ hne]
            exact hold
      | false =>
        rw [stepSettle_eq_act_keep cr cv s i o run hr hp hu hdel]
        set run' : Run := { run with settled := some (chainSettle cr cv o).2 }
          with hrun'
        set s' : MemoState := { s with runs := s.runs.set i run' } with hs'
        have hruns : s'.runs = s.runs.set i run' := rfl
        have hcont : ∀ L', contents s' L' = contents s L' := by
          intro L'
          rw [hs']
          exact contents_set_runs _ _ _
        constructor
        · intro L' j hc'
          rw [hcont] at hc'
          obtain ⟨rj, hrj, hsl⟩ := h.1 L' j hc'
          by_cases hji : j = i
          · rw [hji, hr] at hrj
            have hre : rj = run := by
              injection hrj with hh
              exact hh.symm
            refine ⟨run', ?_, ?_⟩
            · rw [hruns, hji, List.getElem?_set_eq_of_lt _ hlt]
            · rw [hrun']
              rw [hre] at hsl
              exact hsl
          · refine ⟨rj, ?_, hsl⟩
            rw [hruns, List.getElem?_set_ne (fun hh => hji hh.symm)]
            exact hrj
        · intro i' run'' hr'' hp'' hu''
          by_cases hii : i' = i
          · rw [hii, hruns, List.getElem?_set_eq_of_lt _ hlt] at hr''
            simp only [Option.some.injEq] at hr''
            rw [← hr'', hrun'] at hu''
            simp at hu''
          · rw [hruns, List.getElem?_set_ne (fun hh => hii hh.symm)] at hr''
            have hold := h.2 i' run'' hr'' hp'' hu''
            rw [hcont]
            exact hold

theorem inv_stepEv (hasher : Option (List JSVal → JSVal)) (cr cv : Bool)
    (compute : Nat → ComputeRes) (s : MemoState) (ev : MemoEv) (h : EngineInv s) :
    EngineInv (stepEv hasher cr cv compute s ev) := by
  cases ev with
  | call args => exact inv_stepCall hasher cr cv compute s args h
  | settle i o => exact inv_stepSettle cr cv s i o h

theorem inv_foldl (hasher : Option (List JSVal → JSVal)) (cr cv : Bool)
    (compute : Nat → ComputeRes) (t : List MemoEv) (s : MemoState)
    (h : EngineInv s) : EngineInv (t.foldl (stepEv hasher cr cv compute) s) := by
  induction t generalizing s with
  | nil => exact h
  | cons ev rest ih =>
    exact ih _ (inv_stepEv hasher cr cv compute s ev h)

theorem inv_runTrace (hasher : Option (List JSVal → JSVal)) (cr cv : Bool)
    (compute : Nat → ComputeRes) (t : List MemoEv) :
    EngineInv (runTrace hasher cr cv compute t) :=
  inv_foldl hasher cr cv compute t MemoState.init inv_init

/-- After any call, the location the call used holds exactly the value the
call returned (on a hit the stored value, on a miss the freshly stored one). -/
theorem stepCall_contents (hasher : Option (List JSVal → JSVal)) (cr cv : Bool)
    (compute : Nat → ComputeRes) (s : MemoState) (args : List JSVal) :
    contents (stepCall hasher cr cv compute s args).1 (callLocation hasher args)
      = some (stepCall hasher cr cv compute s args).2 := by
  cases hC : contents s (callLocation hasher args) with
  | some v =>
    rw [stepCall_eq_hit hasher cr cv compute s args v hC]
    exact hC
  | none =>
    cases hcomp : compute s.runs.length with
    | value v =>
      rw [stepCall_eq_miss_value hasher cr cv compute s args v hC hcomp]
      exact contents_writeSlot_self _ _ _
    | promise =>
      rw [stepCall_eq_miss_promise hasher cr cv compute s args hC hcomp]
      exact contents_writeSlot_self _ _ _

/-- One step of burst preservation: while run `i`'s promise is unsettled, no
event other than run `i`'s own settlement can evict it from its slot (calls
never delete; another run's settlement handler deletes only its own slot,
which cannot currently hold run `i`'s promise). -/
theorem prom_persists (hasher : Option (List JSVal → JSVal)) (cr cv : Bool)
    (compute : Nat → ComputeRes) (s : MemoState) (L : SlotRef) (i : Nat)
    (run : Run) (h : EngineInv s) (hc : contents s L = some (.prom i))
    (hrun : s.runs[i]? = some run) (hp : run.isProm = true)
    (hu : run.settled = none) (ev : MemoEv)
    (hne : ∀ o, ev ≠ MemoEv.settle i o) :
    ∃ run', contents (stepEv hasher cr cv compute s ev) L = some (.prom i) ∧
      (stepEv hasher cr cv compute s ev).runs[i]? = some run' ∧
      run'.isProm = true ∧ run'.settled = none := by
  have hlt : i < s.runs.length := (List.getElem?_eq_some.mp hrun).1
  cases ev with
  | call args =>
    show ∃ run', contents (stepCall hasher cr cv compute s args).1 L = _ ∧
      (stepCall hasher cr cv compute s args).1.runs[i]? = some run' ∧ _ ∧ _
    cases hC : contents s (callLocation hasher args) with
    | some v =>
      rw [stepCall_eq_hit hasher cr cv compute s args v hC]
      exact ⟨run, hc, hrun, hp, hu⟩
    | none =>
      have hLne : L ≠ callLocation hasher args := by
        intro hh
        rw [hh, hC] at hc
        exact absurd hc (by simp)
      cases hcomp : compute s.runs.length with
      | value v =>
        rw [stepCall_eq_miss_value hasher cr cv compute s args v hC hcomp]
        refine ⟨run, ?_, ?_, hp, hu⟩
        · rw [contents_writeSlot_ne _ _ _ _ hLne, contents_set_runs]
          exact hc
        · rw [writeSlot_runs]
          simp only [List.getElem?_append, if_pos hlt]
          exact hrun
      | promise =>
        rw [stepCall_eq_miss_promise hasher cr cv compute s args hC hcomp]
        refine ⟨run, ?_, ?_, hp, hu⟩
        · rw [contents_writeSlot_ne _ _ _ _ hLne, contents_set_runs]
          exact hc
        · rw [writeSlot_runs]
          simp only [List.getElem?_append, if_pos hlt]
          exact hrun
  | settle j o =>
    have hji : j ≠ i := by
      intro hh
      exact hne o (by rw [hh])
    show ∃ run', contents (stepSettle cr cv s j o) L = _ ∧
      (stepSettle cr cv s j o).runs[i]? = some run' ∧ _ ∧ _
    cases hrj : s.runs[j]? with
    | none =>
      rw [stepSettle_eq_missing cr cv s j o hrj]
      exact ⟨run, hc, hrun, hp, hu⟩
    | some runj =>
      cases hg : runj.isProm && runj.settled.isNone with
      | false =>
        rw [stepSettle_eq_skip cr cv s j o runj hrj hg]
        exact ⟨run, hc, hrun, hp, hu⟩
      | true =>
        have hpj : runj.isProm = true := by
          cases hpp : runj.isProm
          · rw [hpp] at hg
            simp at hg
          · rfl
        have huj : runj.settled = none := by
          cases huu : runj.settled with
          | none => rfl
          | some x =>
            rw [hpj, huu] at hg
            simp at hg
        have hslotne : runj.slot ≠ L := by
          intro hh
          have hbj := h.2 j runj hrj hpj huj
          rw [hh, hc] at hbj
          have : i = j := by
            simp only [Option.some.injEq, StoredVal.prom.injEq] at hbj
            omega
          exact hji this.symm
        cases hdel : (chainSettle cr cv o).1 with
        | true =>
          rw [stepSettle_eq_act_del cr cv s j o runj hrj hpj huj hdel]
          refine ⟨run, ?_, ?_, hp, hu⟩
          · rw [contents_set_runs, contents_deleteSlot_ne _ _ _ (Ne.symm hslotne)]
            exact hc
          · show ((deleteSlot s runj.slot).runs.set j _)[i]? = some run
            rw [List.getElem?_set_ne hji, deleteSlot_runs]
            exact hrun
        | false =>
          rw [stepSettle_eq_act_keep cr cv s j o runj hrj hpj huj hdel]
          refine ⟨run, ?_, ?_, hp, hu⟩
          · rw [contents_set_runs]
            exact hc
          · show (s.runs.set j _)[i]? = some run
            rw [List.getElem?_set_ne hji]
            exact hrun

/-- Burst preservation over a whole schedule: as long as run `i` does not
settle, its promise stays in its slot, shared by every hit. -/
theorem prom_persists_trace (hasher : Option (List JSVal → JSVal)) (cr cv : Bool)
    (compute : Nat → ComputeRes) (s : MemoState) (L : SlotRef) (i : Nat)
    (run : Run) (h : EngineInv s) (hc : contents s L = some (.prom i))
    (hrun : s.runs[i]? = some run) (hp : run.isProm = true)
    (hu : run.settled = none) (u : List MemoEv)
    (hnu : ∀ o, MemoEv.settle i o ∉ u) :
    ∃ run', contents (u.foldl (stepEv hasher cr cv compute) s) L = some (.prom i) ∧
      (u.foldl (stepEv hasher cr cv compute) s).runs[i]? = some run' ∧
      run'.isProm = true ∧ run'.settled = none := by
  induction u generalizing s run with
  | nil => exact ⟨run, hc, hrun, hp, hu⟩
  | cons ev rest ih =>
    have hne : ∀ o, ev ≠ MemoEv.settle i o := by
      intro o hh
      exact hnu o (by rw [hh]; exact List.mem_cons_self _ _)
    obtain ⟨run', hc', hr', hp', hu'⟩ :=
      prom_persists hasher cr cv compute s L i run h hc hrun hp hu ev hne
    have hnu' : ∀ o, MemoEv.settle i o ∉ rest := by
      intro o hh
      exact hnu o (List.mem_cons_of_mem _ hh)
    simp only [List.foldl_cons]
    exact ih _ _ (inv_stepEv hasher cr cv compute s ev h) hc' hr' hp' hu' hnu'

/-- Settling run `i` records exactly the computation's own outcome as the
outcome delivered by the stored promise (`chainSettle` preserves it). -/
theorem stepSettle_records (cr cv : Bool) (s : MemoState) (i : Nat)
    (o : Outcome) (run : Run) (hr : s.runs[i]? = some run)
    (hp : run.isProm = true) (hu : run.settled = none) :
    ∃ run', (stepSettle cr cv s i o).runs[i]? = some run' ∧
      run'.settled = some o := by
  have hlt : i < s.runs.length := (List.getElem?_eq_some.mp hr).1
  cases hdel : (chainSettle cr cv o).1 with
  | true =>
    rw [stepSettle_eq_act_del cr cv s i o run hr hp hu hdel]
    refine ⟨{ run with settled := some (chainSettle cr cv o).2 }, ?_, ?_⟩
    · show ((deleteSlot s run.slot).runs.set i _)[i]? = _
      rw [deleteSlot_runs]
      exact List.getElem?_set_eq_of_lt _ hlt
    · simp [chainSettle_outcome]
  | false =>
    rw [stepSettle_eq_act_keep cr cv s i o run hr hp hu hdel]
    refine ⟨{ run with settled := some (chainSettle cr cv o).2 }, ?_, ?_⟩
    · show (s.runs.set i _)[i]? = _
      exact List.getElem?_set_eq_of_lt _ hlt
    · simp [chainSettle_outcome]

/-- State of `memoize0(obj, tag, func)` for one fixed `(obj, tag)` pair:
`slot` is the hidden `tag` property of `obj` (`some v` exactly when
`obj.hasOwnProperty(tag)`), `runs` counts invocations of `func`. -/
structure Memo0State where
  slot : Option JSVal
  runs : Nat
deriving DecidableEq

def Memo0State.init : Memo0State := ⟨none, 0⟩

/-- One call of `memoize0`: when `!obj.hasOwnProperty(tag)`, define the
property holding `func()`; then return `obj[tag]`. `func` is modelled per
invocation index so distinct runs are distinguishable. -/
def memoize0Call (func : Nat → JSVal) (s : Memo0State) : Memo0State × JSVal :=
  let s1 :=
    if s.slot.isSome then s
    else { slot := some (func s.runs), runs := s.runs + 1 }
  (s1, s1.slot.getD JSVal.vUndefined)

/-- `n` sequential calls of `memoize0` on the same `(obj, tag)`. -/
def memoize0Iter (func : Nat → JSVal) (s : Memo0State) : Nat → Memo0State
  | 0 => s
  | n + 1 => (memoize0Call func (memoize0Iter func s n)).1

theorem memoize0Iter_of_pos (func : Nat → JSVal) (n : Nat) (hn : 0 < n) :
    memoize0Iter func Memo0State.init n = ⟨some (func 0), 1⟩ := by
  induction n with
  | zero => omega
  | succ m ih =>
    cases m with
    | zero => rfl
    | succ m' =>
      have := ih (by omega)
      show (memoize0Call func (memoize0Iter func Memo0State.init (m' + 1))).1 = _
      rw [this]
      rfl

/-- An entry of the `memoizeExpireUnused` cache: the memoized `result`
(identified by the index of the `func` run that produced it), the scheduled
fire deadline of the pending `setTimeout` timer (absolute time; `none` when
no timer is armed), and — model bookkeeping only, not part of the JS slot —
the time of the entry's last read or creation. -/
structure ExpSlot where
  result : Nat
  timeout : Option Nat
  touched : Nat
deriving DecidableEq

/-- State of one `memoizeExpireUnused(func, ...)` closure: current time,
the `cache` Map, and the recorded `func` invocations (their argument lists,
in order). -/
structure ExpState where
  now : Nat
  cache : List (JSVal × ExpSlot)
  runs : List (List JSVal)
deriving DecidableEq

def ExpState.init : ExpState := ⟨0, [], []⟩

/-- `const key = resolver ? resolver.apply(this, args) : args[0]`. -/
def expKey (resolver : Option (List JSVal → JSVal)) (args : List JSVal) :
    JSVal :=
  match resolver with
  | some res => res args
  | none => args.headD JSVal.vUndefined

/-- One call of the function `memoizeExpireUnused` returns. `unusedMs = 0`
models a falsy `unusedMs` (absent or zero): `if (unusedMs)` skips the timer
logic. On a miss, `func` runs and the slot is inserted; then, when `unusedMs`
is truthy, any pending timer is cleared and a fresh one is armed for
`now + unusedMs` (in Node, `setTimeout(...).unref?.()` returns the timer
handle, so `slot.timeout` holds the new timer). The `touched` field is model
bookkeeping recording this read/creation time. -/
def expCall (resolver : Option (List JSVal → JSVal)) (unusedMs : Nat)
    (s : ExpState) (args : List JSVal) : ExpState × Nat :=
  let key := expKey resolver args
  let hit := alookup s.cache key
  let s1 :=
    match hit with
    | some _ => s
    | none =>
      { s with
        runs := s.runs ++ [args],
        cache := (key, ⟨s.runs.length, none, s.now⟩) :: s.cache }
  let slot :=
    match hit with
    | some sl => { sl with touched := s.now }
    | none => ⟨s.runs.length, none, s.now⟩
  let slot2 :=
    if unusedMs ≠ 0 then { slot with timeout := some (s.now + unusedMs) }
    else slot
  ({ s1 with cache := aset key slot2 s1.cache }, slot2.result)

/-- The timer callback `removeMapKey.bind(cache, key)` firing: enabled only
for an entry whose pending timer's deadline has been reached (a cleared or
replaced timer never fires — the entry always records the current timer).
It deletes the map entry. -/
def expFire (s : ExpState) (k : JSVal) : ExpState :=
  match alookup s.cache k with
  | none => s
  | some sl =>
    match sl.timeout with
    | none => s
    | some d => if d ≤ s.now then { s with cache := aerase k s.cache } else s

/-- Events of the inactivity cache: a call, the passage of time, or a timer
firing. -/
inductive ExpEv where
  | call (args : List JSVal)
  | tick (dt : Nat)
  | fire (k : JSVal)
deriving DecidableEq

def expStep (resolver : Option (List JSVal → JSVal)) (unusedMs : Nat)
    (s : ExpState) : ExpEv → ExpState
  | .call args => (expCall resolver unusedMs s args).1
  | .tick dt => { s with now := s.now + dt }
  | .fire k => expFire s k

def runExp (resolver : Option (List JSVal → JSVal)) (unusedMs : Nat)
    (t : List ExpEv) : ExpState :=
  t.foldl (expStep resolver unusedMs) ExpState.init

/-- Timer invariant of the inactivity cache (for a truthy `unusedMs`): every
entry was last read/created no later than now, and its pending deadline is
exactly that moment plus `unusedMs`. -/
def ExpInv (unusedMs : Nat) (s : ExpState) : Prop :=
  ∀ p ∈ s.cache, p.2.touched ≤ s.now ∧
    ∀ d, p.2.timeout = some d → d = p.2.touched + unusedMs

theorem expInv_init (unusedMs : Nat) : ExpInv unusedMs ExpState.init := by
  intro p hp
  simp [ExpState.init] at hp

theorem expCall_eq_hit (resolver : Option (List JSVal → JSVal))
    (unusedMs : Nat) (s : ExpState) (args : List JSVal) (sl : ExpSlot)
    (hhit : alookup s.cache (expKey resolver args) = some sl)
    (hums : unusedMs ≠ 0) :
    expCall resolver unusedMs s args =
      ({ s with cache := (aset (expKey resolver args)
          ⟨sl.result, some (s.now + unusedMs), s.now⟩ s.cache) }, sl.result) := by
  simp only [expCall, hhit, if_pos hums]

theorem expCall_eq_hit0 (resolver : Option (List JSVal → JSVal))
    (s : ExpState) (args : List JSVal) (sl : ExpSlot)
    (hhit : alookup s.cache (expKey resolver args) = some sl) :
    expCall resolver 0 s args =
      ({ s with cache := (aset (expKey resolver args)
          { sl with touched := s.now } s.cache) }, sl.result) := by
  simp only [expCall, hhit]
  rfl

theorem expCall_eq_miss (resolver : Option (List JSVal → JSVal))
    (unusedMs : Nat) (s : ExpState) (args : List JSVal)
    (hhit : alookup s.cache (expKey resolver args) = none)
    (hums : unusedMs ≠ 0) :
    expCall resolver unusedMs s args =
      ({ s with
          runs := s.runs ++ [args],
          cache := (aset (expKey resolver args)
            ⟨s.runs.length, some (s.now + unusedMs), s.now⟩
            ((expKey resolver args, ⟨s.runs.length, none, s.now⟩) :: s.cache)) },
        s.runs.length) := by
  simp only [expCall, hhit, if_pos hums]

theorem expCall_eq_miss0 (resolver : Option (List JSVal → JSVal))
    (s : ExpState) (args : List JSVal)
    (hhit : alookup s.cache (expKey resolver args) = none) :
    expCall resolver 0 s args =
      ({ s with
          runs := s.runs ++ [args],
          cache := (aset (expKey resolver args) ⟨s.runs.length, none, s.now⟩
            ((expKey resolver args, ⟨s.runs.length, none, s.now⟩) :: s.cache)) },
        s.runs.length) := by
  simp only [expCall, hhit]
  rfl

theorem expFire_eq_absent (s : ExpState) (k : JSVal)
    (h : alookup s.cache k = none) : expFire s k = s := by
  simp only [expFire, h]

theorem expFire_eq_noTimer (s : ExpState) (k : JSVal) (sl : ExpSlot)
    (h : alookup s.cache k = some sl) (ht : sl.timeout = none) :
    expFire s k = s := by
  simp only [expFire, h, ht]

theorem expFire_eq_notdue (s : ExpState) (k : JSVal) (sl : ExpSlot) (d : Nat)
    (h : alookup s.cache k = some sl) (ht : sl.timeout = some d)
    (hd : ¬(d ≤ s.now)) : expFire s k = s := by
  simp only [expFire, h, ht, if_neg hd]

theorem expFire_eq_due (s : ExpState) (k : JSVal) (sl : ExpSlot) (d : Nat)
    (h : alookup s.cache k = some sl) (ht : sl.timeout = some d)
    (hd : d ≤ s.now) : expFire s k = { s with cache := aerase k s.cache } := by
  simp only [expFire, h, ht, if_pos hd]

theorem expInv_expCall (resolver : Option (List JSVal → JSVal))
    (unusedMs : Nat) (hums : unusedMs ≠ 0) (s : ExpState) (args : List JSVal)
    (h : ExpInv unusedMs s) :
    ExpInv unusedMs (expCall resolver unusedMs s args).1 := by
  cases hhit : alookup s.cache (expKey resolver args) with
  | some sl =>
    rw [expCall_eq_hit resolver unusedMs s args sl hhit hums]
    intro p hp
    rcases mem_aset _ _ _ _ hp with he | he
    · rw [he]
      refine ⟨Nat.le_refl _, ?_⟩
      intro d hd
      have hd2 := Option.some.inj hd
      show d = s.now + unusedMs
      omega
    · exact h p he
  | none =>
    rw [expCall_eq_miss resolver unusedMs s args hhit hums]
    intro p hp
    rcases mem_aset _ _ _ _ hp with he | he
    · rw [he]
      refine ⟨Nat.le_refl _, ?_⟩
      intro d hd
      have hd2 := Option.some.inj hd
      show d = s.now + unusedMs
      omega
    · rcases List.mem_cons.mp he with he' | he'
      · rw [he']
        refine ⟨Nat.le_refl _, ?_⟩
        intro d hd
        simp at hd
      · exact h p he'

theorem expInv_expStep (resolver : Option (List JSVal → JSVal))
    (unusedMs : Nat) (hums : unusedMs ≠ 0) (s : ExpState) (ev : ExpEv)
    (h : ExpInv unusedMs s) :
    ExpInv unusedMs (expStep resolver unusedMs s ev) := by
  cases ev with
  | call args => exact expInv_expCall resolver unusedMs hums s args h
  | tick dt =>
    intro p hp
    have := h p hp
    exact ⟨Nat.le_trans this.1 (Nat.le_add_right _ _), this.2⟩
  | fire k =>
    show ExpInv unusedMs (expFire s k)
    cases hl : alookup s.cache k with
    | none =>
      rw [expFire_eq_absent s k hl]
      exact h
    | some sl =>
      cases ht : sl.timeout with
      | none =>
        rw [expFire_eq_noTimer s k sl hl ht]
        exact h
      | some d =>
        by_cases hd : d ≤ s.now
        · rw [expFire_eq_due s k sl d hl ht hd]
          intro p hp
          exact h p (mem_aerase _ _ _ hp)
        · rw [expFire_eq_notdue s k sl d hl ht hd]
          exact h

theorem expInv_runExp (resolver : Option (List JSVal → JSVal))
    (unusedMs : Nat) (hums : unusedMs ≠ 0) (t : List ExpEv) :
    ExpInv unusedMs (runExp resolver unusedMs t) := by
  have hgen : ∀ s, ExpInv unusedMs s →
      ExpInv unusedMs (t.foldl (expStep resolver unusedMs) s) := by
    induction t with
    | nil => intro s hs; exact hs
    | cons ev rest ih =>
      intro s hs
      simp only [List.foldl_cons]
      exact ih _ (expInv_expStep resolver unusedMs hums s ev hs)
  exact hgen ExpState.init (expInv_init unusedMs)

/-- One garbage-collection step over the WeakMap: `roots` are the object
references still reachable from outside the cache. WeakMap keys are held
weakly — an entry whose key object is unreachable is reclaimed. The Map and
the hidden property (strong storages) are untouched. -/
def gcWeak (roots : List Nat) : List (Nat × StoredVal) → List (Nat × StoredVal)
  | [] => []
  | (r, v) :: t =>
    if r ∈ roots then (r, v) :: gcWeak roots t else gcWeak roots t

def gcStep (roots : List Nat) (s : MemoState) : MemoState :=
  { s with weak := gcWeak roots s.weak }

theorem alookup_gcWeak_not_root (roots : List Nat) (l : List (Nat × StoredVal))
    (r : Nat) (hr : r ∉ roots) : alookup (gcWeak roots l) r = none := by
  induction l with
  | nil => rfl
  | cons hd tl ih =>
    obtain ⟨a, v⟩ := hd
    by_cases ha : a ∈ roots
    · have har : ¬(a = r) := by
        intro hh
        rw [hh] at ha
        exact hr ha
      simp [gcWeak, ha, alookup, har, ih]
    · simp [gcWeak, ha, ih]

theorem isWeakKey_vObj (r : Nat) : isWeakKey (JSVal.vObj r) = true := rfl

/-- The strong `Map` storage never holds an object as a key: object keys are
routed to the WeakMap branch by the classifier. -/
def MapKeysPrim (s : MemoState) : Prop :=
  ∀ p ∈ s.map, ∀ r : Nat, p.1 ≠ JSVal.vObj r

theorem callLocation_mapKey_not_obj (hasher : Option (List JSVal → JSVal))
    (args : List JSVal) (k : JSVal)
    (h : callLocation hasher args = SlotRef.mapKey k) (r : Nat) :
    k ≠ JSVal.vObj r := by
  intro hk
  unfold callLocation at h
  by_cases hb : hasher.isSome || args.length > 0
  · rw [if_pos hb] at h
    by_cases hw : isWeakKey (hashKeyOf hasher args)
    · rw [if_pos hw] at h
      exact absurd h (by simp)
    · rw [if_neg hw] at h
      simp only [SlotRef.mapKey.injEq] at h
      rw [h, hk] at hw
      exact hw (isWeakKey_vObj r)
  · rw [if_neg hb] at h
    exact absurd h (by simp)

theorem mem_map_deleteSlot (s : MemoState) (L : SlotRef)
    (p : JSVal × StoredVal) (hp : p ∈ (deleteSlot s L).map) : p ∈ s.map := by
  cases L with
  | weakKey r => exact hp
  | mapKey k => exact mem_aerase _ _ _ hp
  | valProp => exact hp

theorem mapKeysPrim_stepCall (hasher : Option (List JSVal → JSVal))
    (cr cv : Bool) (compute : Nat → ComputeRes) (s : MemoState)
    (args : List JSVal) (h : MapKeysPrim s) :
    MapKeysPrim (stepCall hasher cr cv compute s args).1 := by
  cases hC : contents s (callLocation hasher args) with
  | some v =>
    rw [stepCall_eq_hit hasher cr cv compute s args v hC]
    exact h
  | none =>
    have hwrite : ∀ (runs' : List Run) (sv : StoredVal),
        MapKeysPrim (writeSlot { s with runs := runs' }
          (callLocation hasher args) sv) := by
      intro runs' sv
      cases hL : callLocation hasher args with
      | weakKey r => intro p hp; exact h p hp
      | mapKey k =>
        intro p hp
        simp only [writeSlot] at hp
        rcases List.mem_cons.mp hp with he | he
        · rw [he]
          exact callLocation_mapKey_not_obj hasher args k hL
        · exact h p he
      | valProp => intro p hp; exact h p hp
    cases hcomp : compute s.runs.length with
    | value v =>
      rw [stepCall_eq_miss_value hasher cr cv compute s args v hC hcomp]
      exact hwrite _ _
    | promise =>
      rw [stepCall_eq_miss_promise hasher cr cv compute s args hC hcomp]
      exact hwrite _ _

theorem mapKeysPrim_stepSettle (cr cv : Bool) (s : MemoState) (i : Nat)
    (o : Outcome) (h : MapKeysPrim s) :
    MapKeysPrim (stepSettle cr cv s i o) := by
  cases hr : s.runs[i]? with
  | none =>
    rw [stepSettle_eq_missing cr cv s i o hr]
    exact h
  | some run =>
    cases hg : run.isProm && run.settled.isNone with
    | false =>
      rw [stepSettle_eq_skip cr cv s i o run hr hg]
      exact h
    | true =>
      have hp : run.isProm = true := by
        cases hpp : run.isProm
        · rw [hpp] at hg
          simp at hg
        · rfl
      have hu : run.settled = none := by
        cases huu : run.settled with
        | none => rfl
        | some x =>
          rw [hp, huu] at hg
          simp at hg
      cases hdel : (chainSettle cr cv o).1 with
      | true =>
        rw [stepSettle_eq_act_del cr cv s i o run hr hp hu hdel]
        intro p hp'
        exact h p (mem_map_deleteSlot s run.slot p hp')
      | false =>
        rw [stepSettle_eq_act_keep cr cv s i o run hr hp hu hdel]
        intro p hp'
        exact h p hp'

theorem mapKeysPrim_runTrace (hasher : Option (List JSVal → JSVal))
    (cr cv : Bool) (compute : Nat → ComputeRes) (t : List MemoEv) :
    MapKeysPrim (runTrace hasher cr cv compute t) := by
  have hgen : ∀ s, MapKeysPrim s →
      MapKeysPrim (t.foldl (stepEv hasher cr cv compute) s) := by
    induction t with
    | nil => intro s hs; exact hs
    | cons ev rest ih =>
      intro s hs
      simp only [List.foldl_cons]
      refine ih _ ?_
      cases ev with
      | call args => exact mapKeysPrim_stepCall hasher cr cv compute s args hs
      | settle i o => exact mapKeysPrim_stepSettle cr cv s i o hs
  refine hgen MemoState.init ?_
  intro p hp
  simp [MemoState.init] at hp

/-- C1: for a wrapped asynchronous member, any call whose derived key selects
the same slot, made while the promise cached there (run `i`'s) is unsettled
(no `settle i` event occurs in the interleaving `u`), receives the identical
promise object `StoredVal.prom i` and leaves the state unchanged — one
computation run serves the whole burst. Moreover the settlement of run `i`
records a single outcome, equal to the computation's own outcome, which is
what every holder of that one promise observes. -/
theorem claim_C1 (hasher : Option (List JSVal → JSVal)) (cr cv : Bool)
    (compute : Nat → ComputeRes) (t u : List MemoEv) (args args' : List JSVal)
    (i : Nat)
    (hkey : callLocation hasher args' = callLocation hasher args)
    (hres : (stepCall hasher cr cv compute (runTrace hasher cr cv compute t)
      args).2 = StoredVal.prom i)
    (hun : ∃ run,
      (stepCall hasher cr cv compute (runTrace hasher cr cv compute t)
        args).1.runs[i]? = some run ∧ run.isProm = true ∧ run.settled = none)
    (hnu : ∀ o, MemoEv.settle i o ∉ u) :
    (stepCall hasher cr cv compute
        (u.foldl (stepEv hasher cr cv compute)
          (stepCall hasher cr cv compute (runTrace hasher cr cv compute t)
            args).1) args'
      = (u.foldl (stepEv hasher cr cv compute)
          (stepCall hasher cr cv compute (runTrace hasher cr cv compute t)
            args).1, StoredVal.prom i)) ∧
    (∀ o : Outcome, ∃ run',
      (stepSettle cr cv
        (u.foldl (stepEv hasher cr cv compute)
          (stepCall hasher cr cv compute (runTrace hasher cr cv compute t)
            args).1) i o).runs[i]? = some run' ∧ run'.settled = some o) := by
  obtain ⟨run, hrun, hp, hu⟩ := hun
  set s1 := runTrace hasher cr cv compute t with hs1
  set s2 := (stepCall hasher cr cv compute s1 args).1 with hs2
  have hInv2 : EngineInv s2 :=
    inv_stepCall hasher cr cv compute s1 args
      (inv_runTrace hasher cr cv compute t)
  have hc2 : contents s2 (callLocation hasher args) = some (.prom i) := by
    rw [hs2, stepCall_contents, hres]
  obtain ⟨run', hc3, hr3, hp3, hu3⟩ :=
    prom_persists_trace hasher cr cv compute s2 (callLocation hasher args) i
      run hInv2 hc2 hrun hp hu u hnu
  constructor
  · exact stepCall_eq_hit hasher cr cv compute _ args' (.prom i)
      (by rw [hkey]; exact hc3)
  · intro o
    exact stepSettle_records cr cv _ i o run' hr3 hp3 hu3

theorem claim_C1_witness :
    (callLocation none [JSVal.vStr "k"] = callLocation none [JSVal.vStr "k"] ∧
      (stepCall none true false (fun _ => ComputeRes.promise)
        (runTrace none true false (fun _ => ComputeRes.promise) [])
        [JSVal.vStr "k"]).2 = StoredVal.prom 0) ∧
    stepCall none true false (fun _ => ComputeRes.promise)
        (List.foldl (stepEv none true false (fun _ => ComputeRes.promise))
          (stepCall none true false (fun _ => ComputeRes.promise)
            (runTrace none true false (fun _ => ComputeRes.promise) [])
            [JSVal.vStr "k"]).1 [])
        [JSVal.vStr "k"]
      = (List.foldl (stepEv none true false (fun _ => ComputeRes.promise))
          (stepCall none true false (fun _ => ComputeRes.promise)
            (runTrace none true false (fun _ => ComputeRes.promise) [])
            [JSVal.vStr "k"]).1 [], StoredVal.prom 0) :=
  ⟨⟨rfl, by decide⟩,
    (claim_C1 none true false (fun _ => ComputeRes.promise) [] []
      [JSVal.vStr "k"] [JSVal.vStr "k"] 0 rfl (by decide)
      ⟨⟨SlotRef.mapKey (JSVal.vStr "k"), true, none⟩, by decide, rfl, rfl⟩
      (fun o h => by simp at h)).1⟩

theorem stepCall_miss_length (hasher : Option (List JSVal → JSVal))
    (cr cv : Bool) (compute : Nat → ComputeRes) (s : MemoState)
    (args : List JSVal)
    (hC : contents s (callLocation hasher args) = none) :
    (stepCall hasher cr cv compute s args).1.runs.length
      = s.runs.length + 1 := by
  cases hcomp : compute s.runs.length with
  | value v =>
    rw [stepCall_eq_miss_value hasher cr cv compute s args v hC hcomp]
    rw [writeSlot_runs]
    simp
  | promise =>
    rw [stepCall_eq_miss_promise hasher cr cv compute s args hC hcomp]
    rw [writeSlot_runs]
    simp

/-- C2: the default policy is clear-on-reject enabled / clear-on-resolve
disabled (`effectiveFlags none`). When run `i`'s promise rejects with `e`,
the settlement step — in which the bound `deleteXxxAndRethrow` handler's
deletion is sequenced before the derived promise's rejection is recorded —
leaves the slot absent, records exactly `.err e` (the error every waiter of
the shared promise observes, unchanged), and a subsequent call selecting the
same slot misses, so the computation is re-invoked (one more run). -/
theorem claim_C2 (hasher : Option (List JSVal → JSVal))
    (compute : Nat → ComputeRes) (t : List MemoEv) (i : Nat) (run : Run)
    (e : JSVal)
    (hrun : (runTrace hasher true false compute t).runs[i]? = some run)
    (hp : run.isProm = true) (hu : run.settled = none) :
    effectiveFlags none = (true, false) ∧
    contents
      (stepSettle true false (runTrace hasher true false compute t) i
        (.err e)) run.slot = none ∧
    (∃ run',
      (stepSettle true false (runTrace hasher true false compute t) i
        (.err e)).runs[i]? = some run' ∧ run'.settled = some (.err e)) ∧
    (∀ args, callLocation hasher args = run.slot →
      (stepCall hasher true false compute
        (stepSettle true false (runTrace hasher true false compute t) i
          (.err e)) args).1.runs.length
        = (stepSettle true false (runTrace hasher true false compute t) i
            (.err e)).runs.length + 1) := by
  set s := runTrace hasher true false compute t with hs
  have heq := stepSettle_eq_act_del true false s i (.err e) run hrun hp hu rfl
  have hcon : contents (stepSettle true false s i (.err e)) run.slot = none := by
    rw [heq, contents_set_runs, contents_deleteSlot_self]
  refine ⟨rfl, hcon, ?_, ?_⟩
  · exact stepSettle_records true false s i (.err e) run hrun hp hu
  · intro args hargs
    apply stepCall_miss_length
    rw [hargs]
    exact hcon

theorem claim_C2_witness :
    ((runTrace none true false (fun _ => ComputeRes.promise)
        [MemoEv.call [JSVal.vStr "k"]]).runs[0]?
      = some ⟨SlotRef.mapKey (JSVal.vStr "k"), true, none⟩) ∧
    contents
      (stepSettle true false
        (runTrace none true false (fun _ => ComputeRes.promise)
          [MemoEv.call [JSVal.vStr "k"]]) 0 (.err (JSVal.vStr "boom")))
      (SlotRef.mapKey (JSVal.vStr "k")) = none ∧
    (stepCall none true false (fun _ => ComputeRes.promise)
      (stepSettle true false
        (runTrace none true false (fun _ => ComputeRes.promise)
          [MemoEv.call [JSVal.vStr "k"]]) 0
        (.err (JSVal.vStr "boom"))) [JSVal.vStr "k"]).1.runs.length
      = (stepSettle true false
          (runTrace none true false (fun _ => ComputeRes.promise)
            [MemoEv.call [JSVal.vStr "k"]]) 0
          (.err (JSVal.vStr "boom"))).runs.length + 1 := by
  have h := claim_C2 none (fun _ => ComputeRes.promise)
    [MemoEv.call [JSVal.vStr "k"]] 0
    ⟨SlotRef.mapKey (JSVal.vStr "k"), true, none⟩ (JSVal.vStr "boom")
    (by decide) rfl rfl
  exact ⟨by decide, h.2.1, h.2.2.2 [JSVal.vStr "k"] rfl⟩

/-- C3 (evaluating the code at the failing input): an options record that
only sets `clearOnResolve` leaves `clearOnReject` destructured as `undefined`
— falsy in `if (clearOnReject && ...)` — because the parameter default
applies only when the whole `options` argument is absent. Contrary to the
source's own doc comment on `MemoizeOptions.clearOnReject` ("Defaults to
`true`"), a rejected promise's slot is then NOT removed: after the call and
its rejection, a second call with the same key returns the still-cached
rejected promise and the computation is not re-invoked (still exactly one
run). -/
theorem claim_C3 :
    effectiveFlags (some { clearOnReject := none, clearOnResolve := some true })
      = (false, true) ∧
    stepCall none false true (fun _ => ComputeRes.promise)
        (runTrace none false true (fun _ => ComputeRes.promise)
          [MemoEv.call [JSVal.vStr "k"],
            MemoEv.settle 0 (.err (JSVal.vStr "boom"))]) [JSVal.vStr "k"]
      = (runTrace none false true (fun _ => ComputeRes.promise)
          [MemoEv.call [JSVal.vStr "k"],
            MemoEv.settle 0 (.err (JSVal.vStr "boom"))], StoredVal.prom 0) ∧
    (runTrace none false true (fun _ => ComputeRes.promise)
      [MemoEv.call [JSVal.vStr "k"],
        MemoEv.settle 0 (.err (JSVal.vStr "boom"))]).runs.length = 1 :=
  ⟨rfl, by decide, by decide⟩

theorem isWeakKey_iff_not_null_object (v : JSVal) :
    isWeakKey v = true ↔ v ≠ JSVal.vNull ∧ typeofJS v = "object" := by
  cases v <;> simp [isWeakKey, typeofJS]

theorem isWeakKey_iff_obj (v : JSVal) :
    isWeakKey v = true ↔ ∃ r, v = JSVal.vObj r := by
  cases v <;> simp [isWeakKey, typeofJS]

/-- C4: for a call with a hasher or at least one argument, the raw key (the
sole argument, or the hasher's return value) is classified identity-key —
routed to the WeakMap — exactly when it is non-null and of `typeof`
"object", which in this value model is exactly being an object reference;
otherwise it is value-keyed in the Map. A zero-argument call with no hasher
bypasses classification and uses the singleton hidden-property slot. -/
theorem claim_C4 (hasher : Option (List JSVal → JSVal)) (args : List JSVal) :
    (hasher = none → args = [] → callLocation hasher args = SlotRef.valProp) ∧
    ((hasher.isSome || args.length > 0) = true →
      ((isWeakKey (hashKeyOf hasher args) = true ↔
          hashKeyOf hasher args ≠ JSVal.vNull ∧
            typeofJS (hashKeyOf hasher args) = "object") ∧
        (isWeakKey (hashKeyOf hasher args) = true ↔
          ∃ r, hashKeyOf hasher args = JSVal.vObj r) ∧
        ((∃ r, hashKeyOf hasher args = JSVal.vObj r) →
          callLocation hasher args
            = SlotRef.weakKey (objRef (hashKeyOf hasher args))) ∧
        (¬(∃ r, hashKeyOf hasher args = JSVal.vObj r) →
          callLocation hasher args
            = SlotRef.mapKey (hashKeyOf hasher args)))) := by
  constructor
  · intro h1 h2
    rw [h1, h2]
    rfl
  · intro hb
    refine ⟨isWeakKey_iff_not_null_object _, isWeakKey_iff_obj _, ?_, ?_⟩
    · intro hex
      have hw : isWeakKey (hashKeyOf hasher args) = true :=
        (isWeakKey_iff_obj _).mpr hex
      simp only [callLocation, hb, if_true, hw]
    · intro hex
      have hw : ¬(isWeakKey (hashKeyOf hasher args) = true) := by
        intro hh
        exact hex ((isWeakKey_iff_obj _).mp hh)
      simp only [callLocation, hb, if_true, if_neg hw]

theorem claim_C4_witness :
    (((none : Option (List JSVal → JSVal)).isSome ||
        [JSVal.vObj 7].length > 0) = true) ∧
    callLocation none [JSVal.vObj 7] = SlotRef.weakKey 7 ∧
    callLocation none [JSVal.vStr "k"] = SlotRef.mapKey (JSVal.vStr "k") ∧
    callLocation (none : Option (List JSVal → JSVal)) [] = SlotRef.valProp :=
  ⟨by decide,
    ((claim_C4 none [JSVal.vObj 7]).2 (by decide)).2.2.1 ⟨7, rfl⟩,
    ((claim_C4 none [JSVal.vStr "k"]).2 (by decide)).2.2.2
      (by rintro ⟨r, hr⟩; simp [hashKeyOf] at hr),
    (claim_C4 none []).1 rfl rfl⟩

/-- C5: an identity-keyed cache entry never by itself keeps its key object
reachable. The strong Map's keys are never object references (object keys go
only to the WeakMap branch), and WeakMap keys are weak: a garbage-collection
step — no explicit invalidation code of the engine — reclaims the entry of
any key object with no external owner, leaving the strong storages
untouched. -/
theorem claim_C5 (hasher : Option (List JSVal → JSVal)) (cr cv : Bool)
    (compute : Nat → ComputeRes) (t : List MemoEv) (roots : List Nat) (r : Nat)
    (hr : r ∉ roots) :
    (∀ p ∈ (runTrace hasher cr cv compute t).map, ∀ q : Nat,
      p.1 ≠ JSVal.vObj q) ∧
    alookup (gcStep roots (runTrace hasher cr cv compute t)).weak r = none ∧
    (gcStep roots (runTrace hasher cr cv compute t)).map
      = (runTrace hasher cr cv compute t).map ∧
    (gcStep roots (runTrace hasher cr cv compute t)).val
      = (runTrace hasher cr cv compute t).val := by
  refine ⟨mapKeysPrim_runTrace hasher cr cv compute t, ?_, rfl, rfl⟩
  exact alookup_gcWeak_not_root roots _ r hr

theorem claim_C5_witness :
    ((5 : Nat) ∉ ([] : List Nat)) ∧
    alookup
      (gcStep []
        (runTrace none true false (fun _ => ComputeRes.promise)
          [MemoEv.call [JSVal.vObj 5]])).weak 5 = none :=
  ⟨by simp,
    (claim_C5 none true false (fun _ => ComputeRes.promise)
      [MemoEv.call [JSVal.vObj 5]] [] 5 (by simp)).2.1⟩

/-- C6: with `unusedMs` set (truthy), a hit returns the stored result with no
new computation run, cancels the entry's pending timer and rearms it for
`unusedMs` measured from now (the entry's deadline becomes `now + unusedMs`,
whatever it was before); and the timer can evict an entry only when at least
`unusedMs` has elapsed since that entry's last read or creation — never
relative to the absolute time an earlier timer was scheduled, since every
live deadline equals last-touch plus `unusedMs`. -/
theorem claim_C6 (resolver : Option (List JSVal → JSVal)) (unusedMs : Nat)
    (t : List ExpEv) (k : JSVal) (sl : ExpSlot) (args : List JSVal)
    (hums : unusedMs ≠ 0) (hk : expKey resolver args = k)
    (hin : alookup (runExp resolver unusedMs t).cache k = some sl) :
    (expCall resolver unusedMs (runExp resolver unusedMs t) args).2
      = sl.result ∧
    (expCall resolver unusedMs (runExp resolver unusedMs t) args).1.runs
      = (runExp resolver unusedMs t).runs ∧
    alookup
      (expCall resolver unusedMs (runExp resolver unusedMs t) args).1.cache k
      = some ⟨sl.result, some ((runExp resolver unusedMs t).now + unusedMs),
          (runExp resolver unusedMs t).now⟩ ∧
    (∀ k' sl', alookup (runExp resolver unusedMs t).cache k' = some sl' →
      alookup (expFire (runExp resolver unusedMs t) k').cache k' = none →
      sl'.touched + unusedMs ≤ (runExp resolver unusedMs t).now) := by
  set s := runExp resolver unusedMs t with hs
  have hin' : alookup s.cache (expKey resolver args) = some sl := by
    rw [hk]
    exact hin
  have heq := expCall_eq_hit resolver unusedMs s args sl hin' hums
  refine ⟨?_, ?_, ?_, ?_⟩
  · rw [heq]
  · rw [heq]
  · rw [heq]
    show alookup (aset (expKey resolver args) _ s.cache) k = _
    rw [← hk]
    exact alookup_aset_of_mem _ _ _ (by rw [hin']; rfl)
  · intro k' sl' h1 h2
    cases ht : sl'.timeout with
    | none =>
      rw [expFire_eq_noTimer s k' sl' h1 ht] at h2
      rw [h1] at h2
      exact absurd h2 (by simp)
    | some d =>
      by_cases hd : d ≤ s.now
      · have hInv := expInv_runExp resolver unusedMs hums t
        have hmem := alookup_some_mem _ _ _ h1
        have h3 : d = sl'.touched + unusedMs := (hInv _ hmem).2 d ht
        omega
      · rw [expFire_eq_notdue s k' sl' d h1 ht hd] at h2
        rw [h1] at h2
        exact absurd h2 (by simp)

theorem claim_C6_witness :
    ((1000 : Nat) ≠ 0 ∧
      expKey none [JSVal.vStr "a"] = JSVal.vStr "a" ∧
      alookup (runExp none 1000
        [ExpEv.call [JSVal.vStr "a"], ExpEv.tick 100]).cache (JSVal.vStr "a")
        = some ⟨0, some 1000, 0⟩) ∧
    (expCall none 1000
      (runExp none 1000 [ExpEv.call [JSVal.vStr "a"], ExpEv.tick 100])
      [JSVal.vStr "a"]).2 = 0 ∧
    alookup
      (expCall none 1000
        (runExp none 1000 [ExpEv.call [JSVal.vStr "a"], ExpEv.tick 100])
        [JSVal.vStr "a"]).1.cache (JSVal.vStr "a")
      = some ⟨0, some 1100, 100⟩ := by
  have h := claim_C6 none 1000 [ExpEv.call [JSVal.vStr "a"], ExpEv.tick 100]
    (JSVal.vStr "a") ⟨0, some 1000, 0⟩ [JSVal.vStr "a"]
    (by decide) rfl (by decide)
  exact ⟨⟨by decide, rfl, by decide⟩, h.1, h.2.2.1⟩

theorem chainSettle_ok_deletes (cr : Bool) (v : JSVal) :
    (chainSettle cr true (.ok v)).1 = true := by
  cases cr <;> rfl

/-- C7: with clear-on-resolve enabled, a successful settlement removes the
slot and records exactly the resolved value (passed through unchanged by the
`deleteXxxAndReturn` handler); a subsequent call selecting the same slot
misses and re-invokes the computation (two sequential non-overlapping calls
give two runs), while a call made before settlement still hits the cached
promise and coalesces (no new run). -/
theorem claim_C7 (hasher : Option (List JSVal → JSVal)) (cr : Bool)
    (compute : Nat → ComputeRes) (t : List MemoEv) (i : Nat) (run : Run)
    (v : JSVal)
    (hrun : (runTrace hasher cr true compute t).runs[i]? = some run)
    (hp : run.isProm = true) (hu : run.settled = none) :
    contents
      (stepSettle cr true (runTrace hasher cr true compute t) i (.ok v))
      run.slot = none ∧
    (∃ run',
      (stepSettle cr true (runTrace hasher cr true compute t) i
        (.ok v)).runs[i]? = some run' ∧ run'.settled = some (.ok v)) ∧
    (∀ args, callLocation hasher args = run.slot →
      (stepCall hasher cr true compute
        (stepSettle cr true (runTrace hasher cr true compute t) i (.ok v))
        args).1.runs.length
        = (stepSettle cr true (runTrace hasher cr true compute t) i
            (.ok v)).runs.length + 1) ∧
    (∀ args, callLocation hasher args = run.slot →
      stepCall hasher cr true compute (runTrace hasher cr true compute t) args
        = (runTrace hasher cr true compute t, .prom i)) := by
  set s := runTrace hasher cr true compute t with hs
  have heq := stepSettle_eq_act_del cr true s i (.ok v) run hrun hp hu
    (chainSettle_ok_deletes cr v)
  have hcon : contents (stepSettle cr true s i (.ok v)) run.slot = none := by
    rw [heq, contents_set_runs, contents_deleteSlot_self]
  refine ⟨hcon, ?_, ?_, ?_⟩
  · exact stepSettle_records cr true s i (.ok v) run hrun hp hu
  · intro args hargs
    apply stepCall_miss_length
    rw [hargs]
    exact hcon
  · intro args hargs
    have hb : contents s run.slot = some (.prom i) :=
      (inv_runTrace hasher cr true compute t).2 i run hrun hp hu
    exact stepCall_eq_hit hasher cr true compute s args (.prom i)
      (by rw [hargs]; exact hb)

theorem claim_C7_witness :
    ((runTrace none true true (fun _ => ComputeRes.promise)
        [MemoEv.call [JSVal.vStr "k"]]).runs[0]?
      = some ⟨SlotRef.mapKey (JSVal.vStr "k"), true, none⟩) ∧
    contents
      (stepSettle true true
        (runTrace none true true (fun _ => ComputeRes.promise)
          [MemoEv.call [JSVal.vStr "k"]]) 0 (.ok (JSVal.vNum 42)))
      (SlotRef.mapKey (JSVal.vStr "k")) = none ∧
    (stepCall none true true (fun _ => ComputeRes.promise)
      (stepSettle true true
        (runTrace none true true (fun _ => ComputeRes.promise)
          [MemoEv.call [JSVal.vStr "k"]]) 0
        (.ok (JSVal.vNum 42))) [JSVal.vStr "k"]).1.runs.length
      = (stepSettle true true
          (runTrace none true true (fun _ => ComputeRes.promise)
            [MemoEv.call [JSVal.vStr "k"]]) 0
          (.ok (JSVal.vNum 42))).runs.length + 1 ∧
    stepCall none true true (fun _ => ComputeRes.promise)
      (runTrace none true true (fun _ => ComputeRes.promise)
        [MemoEv.call [JSVal.vStr "k"]]) [JSVal.vStr "k"]
      = (runTrace none true true (fun _ => ComputeRes.promise)
          [MemoEv.call [JSVal.vStr "k"]], .prom 0) := by
  have h := claim_C7 none true (fun _ => ComputeRes.promise)
    [MemoEv.call [JSVal.vStr "k"]] 0
    ⟨SlotRef.mapKey (JSVal.vStr "k"), true, none⟩ (JSVal.vNum 42)
    (by decide) rfl rfl
  exact ⟨by decide, h.1, h.2.2.1 [JSVal.vStr "k"] rfl,
    h.2.2.2 [JSVal.vStr "k"] rfl⟩

theorem guard_true_parts (run : Run)
    (hg : (run.isProm && run.settled.isNone) = true) :
    run.isProm = true ∧ run.settled = none := by
  have h1 : run.isProm = true := by
    cases hpp : run.isProm
    · rw [hpp] at hg
      simp at hg
    · rfl
  have h2 : run.settled = none := by
    cases huu : run.settled with
    | none => rfl
    | some x =>
      rw [h1, huu] at hg
      simp at hg
  exact ⟨h1, h2⟩

theorem stepEv_call (hasher : Option (List JSVal → JSVal)) (cr cv : Bool)
    (compute : Nat → ComputeRes) (s : MemoState) (args : List JSVal) :
    stepEv hasher cr cv compute s (MemoEv.call args)
      = (stepCall hasher cr cv compute s args).1 := rfl

theorem stepEv_settle (hasher : Option (List JSVal → JSVal)) (cr cv : Bool)
    (compute : Nat → ComputeRes) (s : MemoState) (i : Nat) (o : Outcome) :
    stepEv hasher cr cv compute s (MemoEv.settle i o)
      = stepSettle cr cv s i o := rfl

theorem stepSettle_keep_preserves (cr cv : Bool) (s : MemoState) (i : Nat)
    (o : Outcome) (hdel : (chainSettle cr cv o).1 = false) :
    (stepSettle cr cv s i o).runs.length = s.runs.length ∧
    (stepSettle cr cv s i o).val = s.val := by
  cases hr : s.runs[i]? with
  | none =>
    rw [stepSettle_eq_missing cr cv s i o hr]
    exact ⟨rfl, rfl⟩
  | some run =>
    cases hg : run.isProm && run.settled.isNone with
    | false =>
      rw [stepSettle_eq_skip cr cv s i o run hr hg]
      exact ⟨rfl, rfl⟩
    | true =>
      obtain ⟨hp, hu⟩ := guard_true_parts run hg
      rw [stepSettle_eq_act_keep cr cv s i o run hr hp hu hdel]
      exact ⟨List.length_set _ _ _, rfl⟩

theorem stepCall_zeroarg_miss (cr cv : Bool) (compute : Nat → ComputeRes)
    (s : MemoState) (hC : s.val = none) :
    (stepCall none cr cv compute s []).1.runs.length = s.runs.length + 1 ∧
    (stepCall none cr cv compute s []).1.val.isSome = true := by
  have hC2 : contents s (callLocation none []) = none := hC
  constructor
  · exact stepCall_miss_length none cr cv compute s [] hC2
  · cases hcomp : compute s.runs.length with
    | value v =>
      rw [stepCall_eq_miss_value none cr cv compute s [] v hC2 hcomp]
      rfl
    | promise =>
      rw [stepCall_eq_miss_promise none cr cv compute s [] hC2 hcomp]
      rfl

theorem c8_aux (cr cv : Bool) (compute : Nat → ComputeRes) (t : List MemoEv)
    (hcalls : ∀ ev ∈ t, ev = MemoEv.call [] ∨
      ∃ i o, ev = MemoEv.settle i o ∧ (chainSettle cr cv o).1 = false) :
    ∀ s : MemoState,
      ((s.runs.length = 0 ∧ s.val = none) ∨
        (s.runs.length = 1 ∧ s.val.isSome = true)) →
      (((t.foldl (stepEv none cr cv compute) s).runs.length = 0 ∧
          (t.foldl (stepEv none cr cv compute) s).val = none) ∨
        ((t.foldl (stepEv none cr cv compute) s).runs.length = 1 ∧
          (t.foldl (stepEv none cr cv compute) s).val.isSome = true)) ∧
      (MemoEv.call [] ∈ t →
        (t.foldl (stepEv none cr cv compute) s).runs.length = 1) ∧
      (s.runs.length = 1 →
        (t.foldl (stepEv none cr cv compute) s).runs.length = 1) := by
  induction t with
  | nil =>
    intro s hQ
    refine ⟨hQ, ?_, ?_⟩
    · intro hmem
      simp at hmem
    · intro h1
      exact h1
  | cons ev rest ih =>
    intro s hQ
    have hcalls2 : ∀ e ∈ rest, e = MemoEv.call [] ∨
        ∃ i o, e = MemoEv.settle i o ∧ (chainSettle cr cv o).1 = false :=
      fun e he => hcalls e (List.mem_cons_of_mem _ he)
    have ihr := ih hcalls2
    have hev := hcalls ev (List.mem_cons_self _ _)
    have hstep : ((stepEv none cr cv compute s ev).runs.length = 0 ∧
          (stepEv none cr cv compute s ev).val = none) ∨
        ((stepEv none cr cv compute s ev).runs.length = 1 ∧
          (stepEv none cr cv compute s ev).val.isSome = true) := by
      rcases hev with hev | ⟨i, o, hev, hdel⟩
      · rw [hev, stepEv_call]
        rcases hQ with ⟨h0, hvn⟩ | ⟨h1, hvs⟩
        · right
          have hm := stepCall_zeroarg_miss cr cv compute s hvn
          exact ⟨by omega, hm.2⟩
        · obtain ⟨sv, hsv⟩ := Option.isSome_iff_exists.mp hvs
          rw [stepCall_eq_hit none cr cv compute s [] sv hsv]
          exact Or.inr ⟨h1, hvs⟩
      · rw [hev, stepEv_settle]
        have hkeep := stepSettle_keep_preserves cr cv s i o hdel
        rw [hkeep.1, hkeep.2]
        exact hQ
    have hstep1 : s.runs.length = 1 →
        (stepEv none cr cv compute s ev).runs.length = 1 := by
      intro h1
      rcases hQ with ⟨h0, hvn⟩ | ⟨h1x, hvs⟩
      · omega
      · rcases hev with hev | ⟨i, o, hev, hdel⟩
        · rw [hev, stepEv_call]
          obtain ⟨sv, hsv⟩ := Option.isSome_iff_exists.mp hvs
          rw [stepCall_eq_hit none cr cv compute s [] sv hsv]
          exact h1
        · rw [hev, stepEv_settle]
          have hkeep := stepSettle_keep_preserves cr cv s i o hdel
          rw [hkeep.1]
          exact h1
    have hrest := ihr (stepEv none cr cv compute s ev) hstep
    simp only [List.foldl_cons]
    refine ⟨hrest.1, ?_, ?_⟩
    · intro hmem
      rcases List.mem_cons.mp hmem with hmem | hmem
      · have hlen1 : (stepEv none cr cv compute s ev).runs.length = 1 := by
          rw [← hmem, stepEv_call]
          rcases hQ with ⟨h0, hvn⟩ | ⟨h1, hvs⟩
          · have hm := stepCall_zeroarg_miss cr cv compute s hvn
            omega
          · obtain ⟨sv, hsv⟩ := Option.isSome_iff_exists.mp hvs
            rw [stepCall_eq_hit none cr cv compute s [] sv hsv]
            exact h1
        exact hrest.2.2 hlen1
      · exact hrest.2.1 hmem
    · intro h1
      exact hrest.2.2 (hstep1 h1)

/-- C8 (counterexample to the claim as stated): a zero-argument wrapped
member under the default policy whose promise rejects runs its computation
twice across two sequential calls — the clear-on-reject handler removed the
slot, so the claim's "runs exactly once across sequential calls" fails (the
repository's own test expects exactly this: errors "error 0" then
"error 1"). -/
theorem claim_C8_cex :
    (runTrace none true false (fun _ => ComputeRes.promise)
      [MemoEv.call [], MemoEv.settle 0 (.err (JSVal.vStr "e0")),
        MemoEv.call []]).runs.length = 2 := by
  decide

/-- C8 (amended): for a zero-argument wrapped member, across any schedule of
sequential calls in which no settlement triggers the member's clear flags
(in particular, under the default policy, no returned promise rejects), the
underlying computation runs exactly once, and a further call returns the
stored value or future, leaving everything unchanged; the singleton helper
`memoize0` runs `func` exactly once unconditionally, every later call
returning the stored value. -/
theorem claim_C8 (cr cv : Bool) (compute : Nat → ComputeRes) (t : List MemoEv)
    (hcalls : ∀ ev ∈ t, ev = MemoEv.call [] ∨
      ∃ i o, ev = MemoEv.settle i o ∧ (chainSettle cr cv o).1 = false)
    (hone : MemoEv.call [] ∈ t) :
    (runTrace none cr cv compute t).runs.length = 1 ∧
    (∃ sv, contents (runTrace none cr cv compute t) SlotRef.valProp = some sv ∧
      stepCall none cr cv compute (runTrace none cr cv compute t) []
        = (runTrace none cr cv compute t, sv)) ∧
    (∀ f : Nat → JSVal, ∀ n : Nat, 0 < n →
      (memoize0Iter f Memo0State.init n).runs = 1 ∧
      (memoize0Call f (memoize0Iter f Memo0State.init n)).2 = f 0) := by
  have haux := c8_aux cr cv compute t hcalls MemoState.init (Or.inl ⟨rfl, rfl⟩)
  have hlen : (runTrace none cr cv compute t).runs.length = 1 :=
    haux.2.1 hone
  have hvs : (runTrace none cr cv compute t).val.isSome = true := by
    rcases haux.1 with ⟨h0, _⟩ | ⟨_, hv⟩
    · have h0x : (runTrace none cr cv compute t).runs.length = 0 := h0
      omega
    · exact hv
  obtain ⟨sv, hsv⟩ := Option.isSome_iff_exists.mp hvs
  refine ⟨hlen, ⟨sv, hsv, ?_⟩, ?_⟩
  · exact stepCall_eq_hit none cr cv compute _ [] sv hsv
  · intro f n hn
    constructor
    · rw [memoize0Iter_of_pos f n hn]
    · rw [memoize0Iter_of_pos f n hn]
      rfl

theorem claim_C8_witness :
    ((∀ ev ∈ [MemoEv.call []], ev = MemoEv.call [] ∨
        ∃ i o, ev = MemoEv.settle i o ∧
          (chainSettle true false o).1 = false) ∧
      MemoEv.call [] ∈ [MemoEv.call []]) ∧
    (runTrace none true false (fun _ => ComputeRes.value JSVal.vUndefined)
      [MemoEv.call []]).runs.length = 1 ∧
    (memoize0Iter (fun _ => JSVal.vNum 7) Memo0State.init 3).runs = 1 := by
  have h := claim_C8 true false (fun _ => ComputeRes.value JSVal.vUndefined)
    [MemoEv.call []]
    (by intro ev hev; simp at hev; exact Or.inl hev)
    (List.mem_cons_self _ _)
  refine ⟨⟨?_, List.mem_cons_self _ _⟩, h.1, (h.2.2 (fun _ => JSVal.vNum 7) 3 (by omega)).1⟩
  intro ev hev
  simp at hev
  exact Or.inl hev

theorem contents_init (L : SlotRef) : contents MemoState.init L = none := by
  cases L <;> rfl

/-- C9: slot presence is tracked by key/property existence (`Map.has`,
`WeakMap.has`, `hasOwnProperty`), never by the cached payload itself: a
computation returning `undefined` — or any value `v`, universally
quantified, falsy or not — is cached on the first call, and a second call
with the same key (any argument list, hence any of the three storages)
returns the stored plain value with the computation still having run exactly
once; likewise `memoize0` caches the result and does not call `func`
again. -/
theorem claim_C9 (v : JSVal) (args : List JSVal) :
    ((stepCall none true false (fun _ => ComputeRes.value v)
        (stepCall none true false (fun _ => ComputeRes.value v)
          MemoState.init args).1 args).1.runs.length = 1 ∧
      (stepCall none true false (fun _ => ComputeRes.value v)
        (stepCall none true false (fun _ => ComputeRes.value v)
          MemoState.init args).1 args).2 = StoredVal.plain v) ∧
    ((memoize0Call (fun _ => v)
        (memoize0Call (fun _ => v) Memo0State.init).1).1.runs = 1 ∧
      (memoize0Call (fun _ => v)
        (memoize0Call (fun _ => v) Memo0State.init).1).2 = v) := by
  have h1 := stepCall_eq_miss_value none true false (fun _ => ComputeRes.value v)
    MemoState.init args v (contents_init _) rfl
  have hres1 : (stepCall none true false (fun _ => ComputeRes.value v)
      MemoState.init args).2 = StoredVal.plain v := by
    rw [h1]
  have hc : contents (stepCall none true false (fun _ => ComputeRes.value v)
      MemoState.init args).1 (callLocation none args)
      = some (StoredVal.plain v) := by
    rw [stepCall_contents, hres1]
  have h2 := stepCall_eq_hit none true false (fun _ => ComputeRes.value v)
    (stepCall none true false (fun _ => ComputeRes.value v)
      MemoState.init args).1 args (StoredVal.plain v) hc
  have hlen1 : (stepCall none true false (fun _ => ComputeRes.value v)
      MemoState.init args).1.runs.length = 1 := by
    rw [stepCall_miss_length none true false (fun _ => ComputeRes.value v)
      MemoState.init args (contents_init _)]
    rfl
  refine ⟨⟨?_, ?_⟩, rfl, rfl⟩
  · rw [h2]
    exact hlen1
  · rw [h2]

theorem expCall_lookup_after (resolver : Option (List JSVal → JSVal))
    (unusedMs : Nat) (s : ExpState) (args : List JSVal) :
    ∃ sl, alookup (expCall resolver unusedMs s args).1.cache
        (expKey resolver args) = some sl ∧
      sl.result = (expCall resolver unusedMs s args).2 := by
  by_cases hums : unusedMs = 0
  · subst hums
    cases hhit : alookup s.cache (expKey resolver args) with
    | some sl =>
      rw [expCall_eq_hit0 resolver s args sl hhit]
      refine ⟨{ sl with touched := s.now }, ?_, rfl⟩
      exact alookup_aset_of_mem _ _ _ (by rw [hhit]; rfl)
    | none =>
      rw [expCall_eq_miss0 resolver s args hhit]
      refine ⟨⟨s.runs.length, none, s.now⟩, ?_, rfl⟩
      exact alookup_aset_of_mem _ _ _ (by simp [alookup])
  · cases hhit : alookup s.cache (expKey resolver args) with
    | some sl =>
      rw [expCall_eq_hit resolver unusedMs s args sl hhit hums]
      refine ⟨⟨sl.result, some (s.now + unusedMs), s.now⟩, ?_, rfl⟩
      exact alookup_aset_of_mem _ _ _ (by rw [hhit]; rfl)
    | none =>
      rw [expCall_eq_miss resolver unusedMs s args hhit hums]
      refine ⟨⟨s.runs.length, some (s.now + unusedMs), s.now⟩, ?_, rfl⟩
      exact alookup_aset_of_mem _ _ _ (by simp [alookup])

theorem expCall_hit_runs_result (resolver : Option (List JSVal → JSVal))
    (unusedMs : Nat) (s : ExpState) (args : List JSVal) (sl : ExpSlot)
    (hhit : alookup s.cache (expKey resolver args) = some sl) :
    (expCall resolver unusedMs s args).1.runs = s.runs ∧
    (expCall resolver unusedMs s args).2 = sl.result := by
  by_cases hums : unusedMs = 0
  · subst hums
    rw [expCall_eq_hit0 resolver s args sl hhit]
    exact ⟨rfl, rfl⟩
  · rw [expCall_eq_hit resolver unusedMs s args sl hhit hums]
    exact ⟨rfl, rfl⟩

/-- C10: for `memoizeExpireUnused` with no resolver the cache key is exactly
the call's first argument: from any state, a call with first argument `a`
followed by a second call with the same first argument — whatever the
remaining arguments of either — returns the same result with no additional
computation run; the later call's remaining arguments have no effect. -/
theorem claim_C10 (unusedMs : Nat) (s : ExpState) (a : JSVal)
    (r1 r2 : List JSVal) :
    (expCall none unusedMs
        (expCall none unusedMs s (a :: r1)).1 (a :: r2)).2
      = (expCall none unusedMs s (a :: r1)).2 ∧
    (expCall none unusedMs
        (expCall none unusedMs s (a :: r1)).1 (a :: r2)).1.runs
      = (expCall none unusedMs s (a :: r1)).1.runs := by
  obtain ⟨sl, hlook, hres⟩ := expCall_lookup_after none unusedMs s (a :: r1)
  have h2 := expCall_hit_runs_result none unusedMs
    (expCall none unusedMs s (a :: r1)).1 (a :: r2) sl hlook
  exact ⟨by rw [h2.2, hres], h2.1⟩
